import Mathlib

/-!
Shallow embedding of the misoc SPI master core, from misoc/cores/spi/core.py
(SPIClockGen, SPIRegister, SPIBitCounter, SPIMachine, SPIMaster) together with
the reference shift model of its test bench misoc/cores/spi/test.py
(the functions sampl, sampr, rol, ror, simulate_shifts), and theorems
checking the specification claims against these definitions.

Data registers of width `width` are embedded as natural numbers below
`2 ^ width`; one synchronous tick of a module becomes one application of an
explicit step function.
-/

namespace Spi

/-- The low-bits mask `mask = (1 << width) - 1` used by test.py `_rol` and `_ror`. -/
def mask (width : Nat) : Nat := (1 <<< width) - 1

/-- test.py `_sampl`: if the MSB and the LSB differ, flip the LSB
(`val ^ 1`), else return `val` unchanged. -/
def sampl (val width : Nat) : Nat :=
  if (val >>> (width - 1)) ^^^ (val &&& 1) ≠ 0 then val ^^^ 1 else val

/-- test.py `_sampr`: if the MSB and the LSB differ, flip the MSB
(`val ^ (1 << width - 1)`), else return `val` unchanged. -/
def sampr (val width : Nat) : Nat :=
  if (val >>> (width - 1)) ^^^ (val &&& 1) ≠ 0 then val ^^^ (1 <<< (width - 1)) else val

/-- test.py `_rol`: rotate left by one inside `width` bits. -/
def rol (val width : Nat) : Nat :=
  ((val <<< 1) &&& mask width) ||| ((val &&& mask width) >>> (width - 1))

/-- test.py `_ror`: rotate right by one inside `width` bits. -/
def ror (val width : Nat) : Nat :=
  ((val <<< (width - 1)) &&& mask width) ||| ((val &&& mask width) >>> 1)

/-- Loop body of test.py `_simulate_shifts` for msb-first order:
`curr_val = _rol(_sampl(curr_val, width), width)`. -/
def gstep (width v : Nat) : Nat := rol (sampl v width) width

/-- Loop body of test.py `_simulate_shifts` for lsb-first order:
`curr_val = _ror(_sampr(curr_val, width), width)`. -/
def hstep (width v : Nat) : Nat := ror (sampr v width) width

/-- test.py `_simulate_shifts`: apply (sample, rotate) `num_samples - 1` times,
then one final sample; rotation direction and the fixed-up end chosen by `lsb`. -/
def simulate_shifts (write_val num_samples : Nat) (lsb : Bool) (width : Nat) : Nat :=
  if lsb then sampr ((hstep width)^[num_samples - 1] write_val) width
  else sampl ((gstep width)^[num_samples - 1] write_val) width

/-- SPIRegister combinational output `o = Mux(lsb, data[0], data[-1])`
(core.py line 46). -/
def regO (data width : Nat) (lsb : Bool) : Bool :=
  if lsb then data.testBit 0 else data.testBit (width - 1)

/-- SPIRegister shift action (core.py lines 49-55): lsb-first shifts down
(`data[:-1] := data[1:]`, MSB kept), msb-first shifts up
(`data[1:] := data[:-1]`, LSB kept). -/
def regShift (data width : Nat) (lsb : Bool) : Nat :=
  if lsb then (data >>> 1) ||| (data &&& (1 <<< (width - 1)))
  else ((data <<< 1) &&& mask width) ||| (data &&& 1)

/-- SPIRegister sample action (core.py lines 56-62): the input bit `i` is
written to the MSB (`data[-1] := i`) in lsb-first mode and to the LSB
(`data[0] := i`) in msb-first mode. -/
def regSample (data width : Nat) (lsb : Bool) (i : Bool) : Nat :=
  if lsb then (data &&& ((1 <<< (width - 1)) - 1)) ||| (if i then 1 <<< (width - 1) else 0)
  else ((data >>> 1) <<< 1) ||| (if i then 1 else 0)

/-- One synchronous update of `SPIRegister.data`: the shift `If` block runs
first, the sample `If` block second (later assignments win in migen). -/
def regNext (data width : Nat) (lsb shift sample i : Bool) : Nat :=
  let d1 := if shift then regShift data width lsb else data
  if sample then regSample d1 width lsb i else d1

/-! ### Bitwise characterization of the primitives -/

theorem testBit_mask (width i : Nat) : (mask width).testBit i = decide (i < width) := by
  unfold mask
  rw [Nat.one_shiftLeft]
  exact Nat.testBit_two_pow_sub_one _ _

theorem testBit_one_eq (j : Nat) : Nat.testBit 1 j = decide (j = 0) := by
  cases j with
  | zero => decide
  | succ j =>
    simp only [decide_eq_false (by omega : ¬ (j + 1 = 0))]
    exact Nat.testBit_eq_false_of_lt (by
      have : (2:Nat) ≤ 2 ^ (j + 1) := Nat.le_self_pow (by omega) 2
      omega)

theorem testBit_high_false {val width j : Nat} (hv : val < 2 ^ width) (hj : width ≤ j) :
    val.testBit j = false :=
  Nat.testBit_eq_false_of_lt (lt_of_lt_of_le hv (Nat.pow_le_pow_right (by omega) hj))

/-- The sample condition of `_sampl` and `_sampr` compares the MSB against
the LSB. -/
theorem samp_cond {val width : Nat} (hw : 1 ≤ width) (hv : val < 2 ^ width) :
    ((val >>> (width - 1)) ^^^ (val &&& 1) ≠ 0) ↔
      val.testBit (width - 1) ≠ val.testBit 0 := by
  have hdiv : val >>> (width - 1) = val / 2 ^ (width - 1) := Nat.shiftRight_eq_div_pow _ _
  have hlt : val / 2 ^ (width - 1) < 2 := by
    rw [Nat.div_lt_iff_lt_mul (Nat.pos_pow_of_pos _ (by omega))]
    have hsplit : 2 ^ width = 2 ^ (width - 1) * 2 := by
      rw [← Nat.pow_succ]
      congr 1
      omega
    omega
  have hmsb : val.testBit (width - 1) = decide (val / 2 ^ (width - 1) % 2 = 1) :=
    Nat.testBit_to_div_mod
  have hlsb : val.testBit 0 = decide (val % 2 = 1) := by
    rw [Nat.testBit_to_div_mod]; simp
  have hmod : val / 2 ^ (width - 1) % 2 = val / 2 ^ (width - 1) := Nat.mod_eq_of_lt hlt
  have hm2 : val % 2 < 2 := Nat.mod_lt val (by omega)
  rw [hdiv, Nat.and_one_is_mod]
  rcases (by omega : val / 2 ^ (width - 1) = 0 ∨ val / 2 ^ (width - 1) = 1) with h0 | h0 <;>
    rcases (by omega : val % 2 = 0 ∨ val % 2 = 1) with g0 | g0 <;>
      simp [hmsb, hlsb, hmod, h0, g0]

theorem sampl_testBit {val width : Nat} (hw : 1 ≤ width) (hv : val < 2 ^ width) (j : Nat) :
    (sampl val width).testBit j =
      if j = 0 then val.testBit (width - 1) else val.testBit j := by
  unfold sampl
  by_cases hc : (val >>> (width - 1)) ^^^ (val &&& 1) ≠ 0
  · have hne := (samp_cond hw hv).mp hc
    simp only [if_pos hc, Nat.testBit_xor, testBit_one_eq]
    rcases Nat.eq_zero_or_pos j with hj | hj
    · subst hj
      simp only [decide_eq_true_eq, if_pos rfl, decide_eq_true (rfl : (0:Nat) = 0)]
      cases h0 : val.testBit 0 <;> cases hmsb : val.testBit (width - 1) <;> simp_all
    · simp only [if_neg (by omega : ¬ j = 0), decide_eq_false (by omega : ¬ j = 0)]
      cases val.testBit j <;> simp
  · have heq := (samp_cond hw hv).not_left.mp hc
    simp only [ne_eq, not_not] at heq
    simp only [if_neg hc]
    rcases Nat.eq_zero_or_pos j with hj | hj
    · subst hj; simp [heq]
    · simp [if_neg (by omega : ¬ j = 0)]

theorem sampr_testBit {val width : Nat} (hw : 1 ≤ width) (hv : val < 2 ^ width) (j : Nat) :
    (sampr val width).testBit j =
      if j = width - 1 then val.testBit 0 else val.testBit j := by
  unfold sampr
  by_cases hc : (val >>> (width - 1)) ^^^ (val &&& 1) ≠ 0
  · have hne := (samp_cond hw hv).mp hc
    rw [Nat.one_shiftLeft]
    simp only [if_pos hc, Nat.testBit_xor, Nat.testBit_two_pow]
    by_cases hj : j = width - 1
    · subst hj
      simp only [if_pos rfl, decide_eq_true (rfl : width - 1 = width - 1)]
      cases h0 : val.testBit 0 <;> cases hmsb : val.testBit (width - 1) <;> simp_all
    · simp only [if_neg hj, decide_eq_false (by omega : ¬ width - 1 = j)]
      cases val.testBit j <;> simp
  · have heq := (samp_cond hw hv).not_left.mp hc
    simp only [ne_eq, not_not] at heq
    simp only [if_neg hc]
    by_cases hj : j = width - 1
    · subst hj; simp [heq]
    · simp [if_neg hj]

theorem rol_testBit {val width : Nat} (hw : 1 ≤ width) (hv : val < 2 ^ width) (j : Nat) :
    (rol val width).testBit j =
      if j = 0 then val.testBit (width - 1)
      else if j < width then val.testBit (j - 1) else false := by
  unfold rol
  simp only [Nat.testBit_lor, Nat.testBit_land, Nat.testBit_shiftLeft,
    Nat.testBit_shiftRight, testBit_mask]
  rcases Nat.eq_zero_or_pos j with hj | hj
  · subst hj
    simp only [ge_iff_le, decide_eq_false (by omega : ¬ 1 ≤ 0), Bool.false_and,
      Bool.false_or, if_pos rfl, Nat.add_zero]
    rw [decide_eq_true (by omega : width - 1 < width), Bool.and_true]
    simp
  · by_cases hjw : j < width
    · simp only [if_neg (by omega : ¬ j = 0), if_pos hjw, ge_iff_le,
        decide_eq_true (by omega : 1 ≤ j), decide_eq_true hjw, Bool.true_and,
        Bool.and_true]
      have : val.testBit (width - 1 + j) = false := testBit_high_false hv (by omega)
      simp [this]
    · simp only [if_neg (by omega : ¬ j = 0), if_neg hjw, decide_eq_false hjw,
        Bool.and_false, Bool.false_or]
      have : val.testBit (width - 1 + j) = false := testBit_high_false hv (by omega)
      simp [this]

theorem ror_testBit {val width : Nat} (hw : 1 ≤ width) (hv : val < 2 ^ width) (j : Nat) :
    (ror val width).testBit j =
      if j = width - 1 then val.testBit 0
      else if j < width then val.testBit (j + 1) else false := by
  unfold ror
  simp only [Nat.testBit_lor, Nat.testBit_land, Nat.testBit_shiftLeft,
    Nat.testBit_shiftRight, testBit_mask]
  by_cases hj : j = width - 1
  · subst hj
    simp only [if_pos rfl, ge_iff_le, decide_eq_true (by omega : width - 1 ≤ width - 1),
      Bool.true_and, decide_eq_true (by omega : width - 1 < width), Bool.and_true,
      Nat.sub_self]
    have : val.testBit (1 + (width - 1)) = false := testBit_high_false hv (by omega)
    simp [this]
  · by_cases hjw : j < width
    · simp only [if_neg hj, if_pos hjw, ge_iff_le,
        decide_eq_false (by omega : ¬ width - 1 ≤ j), Bool.false_and, Bool.false_or,
        decide_eq_true hjw, Bool.and_true]
      rw [Nat.add_comm 1 j, decide_eq_true (by omega : j + 1 < width), Bool.and_true]
    · simp only [if_neg hj, if_neg hjw, decide_eq_false hjw, Bool.and_false,
        Bool.false_or, ge_iff_le, decide_eq_true (by omega : width - 1 ≤ j), Bool.true_and]
      have h1 : val.testBit (1 + j) = false := testBit_high_false hv (by omega)
      simp [h1]

theorem two_le_two_pow {width : Nat} (hw : 1 ≤ width) : 2 ≤ 2 ^ width := by
  calc (2:Nat) = 2 ^ 1 := rfl
  _ ≤ 2 ^ width := Nat.pow_le_pow_right (by omega) hw

theorem pow_pred_lt {width : Nat} (hw : 1 ≤ width) : 2 ^ (width - 1) < 2 ^ width := by
  have hsplit : 2 ^ width = 2 ^ (width - 1) * 2 := by
    rw [← Nat.pow_succ]
    congr 1
    omega
  have hpos : 0 < 2 ^ (width - 1) := Nat.pos_pow_of_pos _ (by omega)
  omega

theorem mask_lt {width : Nat} : mask width < 2 ^ width := by
  unfold mask
  rw [Nat.one_shiftLeft]
  have : 0 < 2 ^ width := Nat.pos_pow_of_pos _ (by omega)
  omega

theorem sampl_lt {val width : Nat} (hw : 1 ≤ width) (hv : val < 2 ^ width) :
    sampl val width < 2 ^ width := by
  unfold sampl
  split
  · exact Nat.xor_lt_two_pow hv (by have := two_le_two_pow hw; omega)
  · exact hv

theorem sampr_lt {val width : Nat} (hw : 1 ≤ width) (hv : val < 2 ^ width) :
    sampr val width < 2 ^ width := by
  unfold sampr
  rw [Nat.one_shiftLeft]
  split
  · exact Nat.xor_lt_two_pow hv (pow_pred_lt hw)
  · exact hv

theorem rol_lt {val width : Nat} (hv : val < 2 ^ width) : rol val width < 2 ^ width := by
  unfold rol
  refine Nat.or_lt_two_pow (Nat.and_lt_two_pow _ mask_lt) ?_
  rw [Nat.shiftRight_eq_div_pow]
  exact lt_of_le_of_lt (Nat.div_le_self _ _) (Nat.and_lt_two_pow _ mask_lt)

theorem ror_lt {val width : Nat} (hv : val < 2 ^ width) : ror val width < 2 ^ width := by
  unfold ror
  refine Nat.or_lt_two_pow (Nat.and_lt_two_pow _ mask_lt) ?_
  rw [Nat.shiftRight_eq_div_pow]
  exact lt_of_le_of_lt (Nat.div_le_self _ _) (Nat.and_lt_two_pow _ mask_lt)

theorem regShift_lt {data width : Nat} (hw : 1 ≤ width) (hv : data < 2 ^ width)
    (lsb : Bool) : regShift data width lsb < 2 ^ width := by
  unfold regShift
  cases lsb
  · simp only [Bool.false_eq_true, if_false]
    refine Nat.or_lt_two_pow (Nat.and_lt_two_pow _ mask_lt) ?_
    have h1 : data &&& 1 ≤ 1 := Nat.and_le_right
    have := two_le_two_pow hw
    omega
  · simp only [if_true]
    refine Nat.or_lt_two_pow ?_ ?_
    · rw [Nat.shiftRight_eq_div_pow]
      exact lt_of_le_of_lt (Nat.div_le_self _ _) hv
    · rw [Nat.one_shiftLeft]
      exact Nat.and_lt_two_pow _ (pow_pred_lt hw)

theorem regSample_lt {data width : Nat} (hw : 1 ≤ width) (hv : data < 2 ^ width)
    (lsb i : Bool) : regSample data width lsb i < 2 ^ width := by
  unfold regSample
  cases lsb
  · simp only [Bool.false_eq_true, if_false]
    refine Nat.or_lt_two_pow ?_ ?_
    · rw [Nat.shiftLeft_eq, Nat.shiftRight_eq_div_pow]
      have h1 : data / 2 ^ 1 * 2 ^ 1 ≤ data := Nat.div_mul_le_self _ _
      omega
    · have := two_le_two_pow hw
      cases i <;> simp <;> omega
  · simp only [if_true]
    rw [Nat.one_shiftLeft]
    refine Nat.or_lt_two_pow (Nat.and_lt_two_pow _ ?_) ?_
    · have := pow_pred_lt hw
      have : 0 < 2 ^ (width - 1) := Nat.pos_pow_of_pos _ (by omega)
      omega
    · have hp := pow_pred_lt hw
      have : 0 < 2 ^ width := Nat.pos_pow_of_pos _ (by omega)
      cases i <;> simp <;> omega

theorem regShift_testBit_msb {data width : Nat} (hw : 1 ≤ width) (hv : data < 2 ^ width)
    (j : Nat) :
    (regShift data width false).testBit j =
      if j = 0 then data.testBit 0
      else if j < width then data.testBit (j - 1) else false := by
  unfold regShift
  simp only [Bool.false_eq_true, if_false, Nat.testBit_lor, Nat.testBit_land,
    Nat.testBit_shiftLeft, testBit_mask, testBit_one_eq]
  rcases Nat.eq_zero_or_pos j with hj | hj
  · subst hj
    simp
  · by_cases hjw : j < width
    · simp only [if_neg (by omega : ¬ j = 0), if_pos hjw, ge_iff_le,
        decide_eq_true (by omega : 1 ≤ j), decide_eq_true hjw,
        decide_eq_false (by omega : ¬ j = 0), Bool.true_and, Bool.and_true,
        Bool.and_false, Bool.or_false]
    · simp only [if_neg (by omega : ¬ j = 0), if_neg hjw, decide_eq_false hjw,
        decide_eq_false (by omega : ¬ j = 0), Bool.and_false, Bool.or_false,
        Bool.false_or]

theorem regShift_testBit_lsb {data width : Nat} (hw : 1 ≤ width) (hv : data < 2 ^ width)
    (j : Nat) :
    (regShift data width true).testBit j =
      if j = width - 1 then data.testBit (width - 1)
      else if j < width then data.testBit (j + 1) else false := by
  unfold regShift
  rw [Nat.one_shiftLeft]
  simp only [if_true, Nat.testBit_lor, Nat.testBit_land, Nat.testBit_shiftRight,
    Nat.testBit_two_pow]
  by_cases hj : j = width - 1
  · subst hj
    simp only [if_pos rfl, decide_eq_true (rfl : width - 1 = width - 1), Bool.and_true]
    have h1 : data.testBit (1 + (width - 1)) = false := testBit_high_false hv (by omega)
    simp [h1]
  · simp only [if_neg hj, decide_eq_false (by omega : ¬ width - 1 = j), Bool.and_false,
      Bool.or_false]
    by_cases hjw : j < width
    · simp only [if_pos hjw]
      rw [Nat.add_comm 1 j]
    · simp only [if_neg hjw]
      exact testBit_high_false hv (by omega)

theorem regSample_testBit_msb {data width : Nat} (i : Bool) (j : Nat) :
    (regSample data width false i).testBit j =
      if j = 0 then i else data.testBit j := by
  unfold regSample
  simp only [Bool.false_eq_true, if_false, Nat.testBit_lor, Nat.testBit_shiftLeft,
    Nat.testBit_shiftRight]
  rcases Nat.eq_zero_or_pos j with hj | hj
  · subst hj
    simp only [ge_iff_le, decide_eq_false (by omega : ¬ 1 ≤ 0), Bool.false_and,
      Bool.false_or, if_pos rfl]
    cases i
    · simp
    · simp [testBit_one_eq]
  · simp only [if_neg (by omega : ¬ j = 0), ge_iff_le,
      decide_eq_true (by omega : 1 ≤ j), Bool.true_and]
    have h2 : 1 + (j - 1) = j := by omega
    rw [h2]
    cases i
    · simp
    · rw [if_pos rfl, testBit_one_eq, decide_eq_false (by omega : ¬ j = 0)]
      simp

theorem regSample_testBit_lsb {data width : Nat} (hw : 1 ≤ width) (i : Bool) (j : Nat) :
    (regSample data width true i).testBit j =
      if j = width - 1 then i
      else if j < width - 1 then data.testBit j else false := by
  unfold regSample
  rw [Nat.one_shiftLeft]
  simp only [if_true, Nat.testBit_lor, Nat.testBit_land, Nat.testBit_two_pow_sub_one]
  by_cases hj : j = width - 1
  · subst hj
    simp only [if_pos rfl, decide_eq_false (by omega : ¬ width - 1 < width - 1),
      Bool.and_false, Bool.false_or]
    cases i
    · simp
    · simp [Nat.testBit_two_pow]
  · simp only [if_neg hj]
    have hzero : (if i = true then 2 ^ (width - 1) else 0).testBit j = false := by
      have hj2 : width - 1 ≠ j := by omega
      cases i
      · simp
      · simp [Nat.testBit_two_pow, hj2]
    rw [hzero, Bool.or_false]
    by_cases hjw : j < width - 1
    · simp [hjw]
    · simp [hjw]

/-! ### Loopback bridge: register operations against the test reference -/

/-- With mosi looped back to miso the sampled input equals the register output,
and the sample action coincides with `_sampl` (msb-first). -/
theorem loop_sample_msb {data width : Nat} (hw : 1 ≤ width) (hv : data < 2 ^ width) :
    regSample data width false (regO data width false) = sampl data width := by
  apply Nat.eq_of_testBit_eq
  intro j
  rw [regSample_testBit_msb, sampl_testBit hw hv]
  unfold regO
  simp

/-- With mosi looped back to miso the sample action coincides with `_sampr`
(lsb-first). -/
theorem loop_sample_lsb {data width : Nat} (hw : 1 ≤ width) (hv : data < 2 ^ width) :
    regSample data width true (regO data width true) = sampr data width := by
  apply Nat.eq_of_testBit_eq
  intro j
  rw [regSample_testBit_lsb hw, sampr_testBit hw hv]
  unfold regO
  simp only [if_true]
  by_cases hj : j = width - 1
  · simp [hj]
  · simp only [if_neg hj]
    by_cases hjw : j < width - 1
    · simp [hjw]
    · simp only [if_neg hjw]
      exact (testBit_high_false hv (by omega)).symm

/-- On a value whose LSB equals its MSB (as after a loopback sample) the
register shift coincides with `_rol` (msb-first). -/
theorem shift_eq_rol {x width : Nat} (hw : 1 ≤ width) (hx : x < 2 ^ width)
    (hbit : x.testBit 0 = x.testBit (width - 1)) :
    regShift x width false = rol x width := by
  apply Nat.eq_of_testBit_eq
  intro j
  rw [regShift_testBit_msb hw hx, rol_testBit hw hx]
  rcases Nat.eq_zero_or_pos j with hj | hj
  · simp [hj, hbit]
  · simp [if_neg (by omega : ¬ j = 0)]

/-- On a value whose MSB equals its LSB (as after a loopback sample) the
register shift coincides with `_ror` (lsb-first). -/
theorem shift_eq_ror {x width : Nat} (hw : 1 ≤ width) (hx : x < 2 ^ width)
    (hbit : x.testBit (width - 1) = x.testBit 0) :
    regShift x width true = ror x width := by
  apply Nat.eq_of_testBit_eq
  intro j
  rw [regShift_testBit_lsb hw hx, ror_testBit hw hx]
  by_cases hj : j = width - 1
  · simp [hj, hbit]
  · simp [if_neg hj]

/-- After `_sampl` the LSB mirrors the MSB. -/
theorem sampl_bit_eq {val width : Nat} (hw : 2 ≤ width) (hv : val < 2 ^ width) :
    (sampl val width).testBit 0 = (sampl val width).testBit (width - 1) := by
  rw [sampl_testBit (by omega) hv, sampl_testBit (by omega) hv]
  simp [if_neg (by omega : ¬ width - 1 = 0)]

/-- After `_sampr` the MSB mirrors the LSB. -/
theorem sampr_bit_eq {val width : Nat} (hw : 2 ≤ width) (hv : val < 2 ^ width) :
    (sampr val width).testBit (width - 1) = (sampr val width).testBit 0 := by
  rw [sampr_testBit (by omega) hv, sampr_testBit (by omega) hv]
  simp [if_neg (by omega : ¬ (0:Nat) = width - 1)]

/-! ### Periodicity of the reference shift model -/

theorem gstep_lt {v width : Nat} (hw : 1 ≤ width) (hv : v < 2 ^ width) :
    gstep width v < 2 ^ width := rol_lt (sampl_lt hw hv)

theorem hstep_lt {v width : Nat} (hw : 1 ≤ width) (hv : v < 2 ^ width) :
    hstep width v < 2 ^ width := ror_lt (sampr_lt hw hv)

theorem gstep_iter_lt {width : Nat} (hw : 1 ≤ width) (m : Nat) :
    ∀ v, v < 2 ^ width → (gstep width)^[m] v < 2 ^ width := by
  induction m with
  | zero => intro v hv; exact hv
  | succ m ih =>
    intro v hv
    rw [Function.iterate_succ_apply]
    exact ih _ (gstep_lt hw hv)

theorem hstep_iter_lt {width : Nat} (hw : 1 ≤ width) (m : Nat) :
    ∀ v, v < 2 ^ width → (hstep width)^[m] v < 2 ^ width := by
  induction m with
  | zero => intro v hv; exact hv
  | succ m ih =>
    intro v hv
    rw [Function.iterate_succ_apply]
    exact ih _ (hstep_lt hw hv)

/-- One msb-first (sample, rotate) step rotates the bits above the LSB by one
position inside a cycle of length `width - 1`. -/
theorem gstep_testBit {v width : Nat} (hw : 2 ≤ width) (hv : v < 2 ^ width)
    {i : Nat} (hi : i ≤ width - 2) :
    (gstep width v).testBit (i + 1) =
      v.testBit (((i + (width - 2)) % (width - 1)) + 1) := by
  unfold gstep
  rw [rol_testBit (by omega) (sampl_lt (by omega) hv)]
  rw [if_neg (by omega : ¬ i + 1 = 0), if_pos (by omega : i + 1 < width)]
  rw [(by omega : i + 1 - 1 = i), sampl_testBit (by omega) hv]
  rcases Nat.eq_zero_or_pos i with hi0 | hi0
  · subst hi0
    rw [if_pos rfl, Nat.zero_add, Nat.mod_eq_of_lt (by omega : width - 2 < width - 1)]
    congr 1
    omega
  · rw [if_neg (by omega : ¬ i = 0)]
    have hsplit : i + (width - 2) = (i - 1) + (width - 1) := by omega
    rw [hsplit, Nat.add_mod_right,
      Nat.mod_eq_of_lt (by omega : i - 1 < width - 1)]
    congr 1
    omega

/-- One lsb-first (sample, rotate) step rotates the bits below the MSB by one
position inside a cycle of length `width - 1`. -/
theorem hstep_testBit {v width : Nat} (hw : 2 ≤ width) (hv : v < 2 ^ width)
    {i : Nat} (hi : i ≤ width - 2) :
    (hstep width v).testBit i = v.testBit ((i + 1) % (width - 1)) := by
  unfold hstep
  rw [ror_testBit (by omega) (sampr_lt (by omega) hv)]
  rw [if_neg (by omega : ¬ i = width - 1), if_pos (by omega : i < width)]
  rw [sampr_testBit (by omega) hv]
  by_cases hiw : i + 1 = width - 1
  · rw [if_pos hiw, hiw, Nat.mod_self]
  · rw [if_neg hiw, Nat.mod_eq_of_lt (by omega : i + 1 < width - 1)]

theorem gstep_iter_testBit {width : Nat} (hw : 2 ≤ width) (m : Nat) :
    ∀ v, v < 2 ^ width → ∀ i, i ≤ width - 2 →
      ((gstep width)^[m] v).testBit (i + 1) =
        v.testBit (((i + m * (width - 2)) % (width - 1)) + 1) := by
  induction m with
  | zero =>
    intro v hv i hi
    simp only [Function.iterate_zero_apply, Nat.zero_mul, Nat.add_zero]
    rw [Nat.mod_eq_of_lt (by omega : i < width - 1)]
  | succ m ih =>
    intro v hv i hi
    rw [Function.iterate_succ_apply']
    rw [gstep_testBit hw (gstep_iter_lt (by omega) m v hv) hi]
    have hi2 : (i + (width - 2)) % (width - 1) ≤ width - 2 := by
      have := Nat.mod_lt (i + (width - 2)) (show 0 < width - 1 by omega)
      omega
    rw [ih v hv _ hi2]
    congr 2
    rw [Nat.mod_add_mod]
    have hmul : (m + 1) * (width - 2) = m * (width - 2) + (width - 2) :=
      Nat.succ_mul m (width - 2)
    rw [hmul]
    congr 1
    omega

theorem hstep_iter_testBit {width : Nat} (hw : 2 ≤ width) (m : Nat) :
    ∀ v, v < 2 ^ width → ∀ i, i ≤ width - 2 →
      ((hstep width)^[m] v).testBit i = v.testBit ((i + m) % (width - 1)) := by
  induction m with
  | zero =>
    intro v hv i hi
    simp only [Function.iterate_zero_apply, Nat.add_zero]
    rw [Nat.mod_eq_of_lt (by omega : i < width - 1)]
  | succ m ih =>
    intro v hv i hi
    rw [Function.iterate_succ_apply']
    rw [hstep_testBit hw (hstep_iter_lt (by omega) m v hv) hi]
    have hi2 : (i + 1) % (width - 1) ≤ width - 2 := by
      have := Nat.mod_lt (i + 1) (show 0 < width - 1 by omega)
      omega
    rw [ih v hv _ hi2]
    congr 1
    rw [Nat.mod_add_mod]
    congr 1
    omega

/-- `_sampl` only depends on the bits above the LSB. -/
theorem sampl_depends {x y width : Nat} (hw : 2 ≤ width) (hx : x < 2 ^ width)
    (hy : y < 2 ^ width) (h : ∀ i, i ≤ width - 2 → x.testBit (i + 1) = y.testBit (i + 1)) :
    sampl x width = sampl y width := by
  apply Nat.eq_of_testBit_eq
  intro j
  rw [sampl_testBit (by omega) hx, sampl_testBit (by omega) hy]
  rcases Nat.eq_zero_or_pos j with hj | hj
  · subst hj
    rw [if_pos rfl, if_pos rfl, (by omega : width - 1 = (width - 2) + 1)]
    exact h _ (by omega)
  · rw [if_neg (by omega : ¬ j = 0), if_neg (by omega : ¬ j = 0)]
    by_cases hjw : j < width
    · rw [(by omega : j = (j - 1) + 1)]
      exact h _ (by omega)
    · rw [testBit_high_false hx (by omega), testBit_high_false hy (by omega)]

/-- `_sampr` only depends on the bits below the MSB. -/
theorem sampr_depends {x y width : Nat} (hw : 2 ≤ width) (hx : x < 2 ^ width)
    (hy : y < 2 ^ width) (h : ∀ i, i ≤ width - 2 → x.testBit i = y.testBit i) :
    sampr x width = sampr y width := by
  apply Nat.eq_of_testBit_eq
  intro j
  rw [sampr_testBit (by omega) hx, sampr_testBit (by omega) hy]
  by_cases hj : j = width - 1
  · rw [if_pos hj, if_pos hj]
    exact h 0 (by omega)
  · rw [if_neg hj, if_neg hj]
    by_cases hjw : j < width
    · exact h _ (by omega)
    · rw [testBit_high_false hx (by omega), testBit_high_false hy (by omega)]

theorem msb_period {v width : Nat} (hw : 2 ≤ width) (hv : v < 2 ^ width) (m : Nat) :
    sampl ((gstep width)^[m + (width - 1)] v) width =
      sampl ((gstep width)^[m] v) width := by
  apply sampl_depends hw (gstep_iter_lt (by omega) _ v hv) (gstep_iter_lt (by omega) _ v hv)
  intro i hi
  rw [gstep_iter_testBit hw _ v hv i hi, gstep_iter_testBit hw _ v hv i hi]
  have hidx : (i + (m + (width - 1)) * (width - 2)) % (width - 1)
      = (i + m * (width - 2)) % (width - 1) := by
    rw [Nat.add_mul m (width - 1) (width - 2), ← Nat.add_assoc,
      Nat.add_mul_mod_self_left]
  rw [hidx]

theorem lsb_period {v width : Nat} (hw : 2 ≤ width) (hv : v < 2 ^ width) (m : Nat) :
    sampr ((hstep width)^[m + (width - 1)] v) width =
      sampr ((hstep width)^[m] v) width := by
  apply sampr_depends hw (hstep_iter_lt (by omega) _ v hv) (hstep_iter_lt (by omega) _ v hv)
  intro i hi
  rw [hstep_iter_testBit hw _ v hv i hi, hstep_iter_testBit hw _ v hv i hi]
  have hidx : (i + (m + (width - 1))) % (width - 1) = (i + m) % (width - 1) := by
    rw [← Nat.add_assoc, Nat.add_mod_right]
  rw [hidx]

/-! ### SPIMachine at clock-edge granularity (core.py lines 88-160) -/

/-- The four FSM states of SPIMachine. -/
inductive FsmState : Type
  | IDLE
  | SETUP
  | HOLD
  | WAIT
deriving DecidableEq

/-- One FSM transition, taken on a clock-generator edge (`fsm.ce = cg.edge`,
core.py line 154); `done` is `SPIBitCounter.done`. -/
def fsmStep (s : FsmState) (start done cpha : Bool) : FsmState :=
  match s with
  | .IDLE => if start then (if cpha then .WAIT else .SETUP) else .IDLE
  | .SETUP => .HOLD
  | .HOLD => if done && !start then (if cpha then .IDLE else .WAIT) else .SETUP
  | .WAIT => if done then .IDLE else .SETUP

/-- `cs = ~fsm.ongoing("IDLE")` (core.py line 155). -/
def csOf (s : FsmState) : Bool :=
  match s with
  | .IDLE => false
  | _ => true

/-- `reg.sample` is asserted exactly in state SETUP (core.py line 117). -/
def sampleOf (s : FsmState) : Bool :=
  match s with
  | .SETUP => true
  | _ => false

def isHold (s : FsmState) : Bool :=
  match s with
  | .HOLD => true
  | _ => false

/-- `reg.shift` is asserted in state HOLD on the continue branch with value
`~start` (core.py lines 120-130). -/
def shiftOf (s : FsmState) (start done : Bool) : Bool :=
  isHold s && !(done && !start) && !start

/-- `SPIBitCounter.done = ~(write | read)` (core.py lines 74-78). -/
def bitsDone (nWrite nRead : Nat) : Bool := nWrite == 0 && nRead == 0

/-- One enabled update of SPIBitCounter (core.py lines 79-85): decrement
`n_write` while nonzero, else `n_read`. -/
def bitsNext (nWrite nRead : Nat) : Nat × Nat :=
  if nWrite != 0 then (nWrite - 1, nRead)
  else if nRead != 0 then (nWrite, nRead - 1)
  else (nWrite, nRead)

/-- SPIMachine state visible at clock-generator edges: FSM state, shift
register contents, and bit counters (their `ce` inputs are all gated on
`cg.edge`, core.py lines 154-157). -/
structure MState : Type where
  fsm : FsmState
  data : Nat
  nWrite : Nat
  nRead : Nat
deriving DecidableEq

/-- One clock-generator edge of SPIMachine with mosi looped back to miso
(the register input `i` equals the register output `o`). The counters
decrement only on sample edges (`bits.ce = cg.edge & reg.sample`). -/
def edgeStep (width : Nat) (cpha lsb start : Bool) (s : MState) : MState :=
  let done := bitsDone s.nWrite s.nRead
  let sample := sampleOf s.fsm
  let shift := shiftOf s.fsm start done
  let i := regO s.data width lsb
  let counters := if sample then bitsNext s.nWrite s.nRead else (s.nWrite, s.nRead)
  ⟨fsmStep s.fsm start done cpha, regNext s.data width lsb shift sample i,
    counters.1, counters.2⟩

/-- The externally visible done pulse `done = cg.edge & bits.done &
fsm.ongoing("HOLD")` (core.py line 158), at edge granularity. -/
def donePulse (s : MState) : Bool := isHold s.fsm && bitsDone s.nWrite s.nRead

/-- Run the machine with `start` deasserted until the done pulse, returning
the register contents latched at that edge. -/
def runToDone (width : Nat) (cpha lsb : Bool) : Nat → MState → Option Nat
  | 0, _ => none
  | fuel + 1, s =>
    if donePulse s then some s.data
    else runToDone width cpha lsb fuel (edgeStep width cpha lsb false s)

theorem edgeStep_setup (width : Nat) (cpha lsb start : Bool) (d nW nR : Nat) :
    edgeStep width cpha lsb start ⟨.SETUP, d, nW, nR⟩ =
      ⟨.HOLD, regSample d width lsb (regO d width lsb),
        (bitsNext nW nR).1, (bitsNext nW nR).2⟩ := rfl

theorem edgeStep_idle (width : Nat) (cpha lsb : Bool) (d nW nR : Nat) :
    edgeStep width cpha lsb true ⟨.IDLE, d, nW, nR⟩ =
      ⟨if cpha then .WAIT else .SETUP, d, nW, nR⟩ := rfl

theorem edgeStep_idle_stay (width : Nat) (cpha lsb : Bool) (d nW nR : Nat) :
    edgeStep width cpha lsb false ⟨.IDLE, d, nW, nR⟩ = ⟨.IDLE, d, nW, nR⟩ := rfl

theorem edgeStep_hold_continue (width : Nat) (cpha lsb : Bool) (d nW nR : Nat)
    (hdone : bitsDone nW nR = false) :
    edgeStep width cpha lsb false ⟨.HOLD, d, nW, nR⟩ =
      ⟨.SETUP, regShift d width lsb, nW, nR⟩ := by
  unfold edgeStep
  simp [fsmStep, sampleOf, shiftOf, isHold, regNext, hdone]

theorem edgeStep_wait_continue (width : Nat) (cpha lsb : Bool) (d nW nR : Nat)
    (hdone : bitsDone nW nR = false) :
    edgeStep width cpha lsb false ⟨.WAIT, d, nW, nR⟩ = ⟨.SETUP, d, nW, nR⟩ := by
  unfold edgeStep
  simp [fsmStep, sampleOf, shiftOf, isHold, regNext, hdone]

theorem bitsDone_false {nW nR k : Nat} (h : nW + nR = k + 1) :
    bitsDone nW nR = false := by
  unfold bitsDone
  rcases Nat.eq_zero_or_pos nW with hw0 | hw0
  · have hr : nR ≠ 0 := by omega
    simp [hw0, hr]
  · have hw1 : nW ≠ 0 := by omega
    simp [hw1]

theorem bitsNext_sum {nW nR k : Nat} (h : nW + nR = k + 1) :
    (bitsNext nW nR).1 + (bitsNext nW nR).2 = k := by
  unfold bitsNext
  by_cases h1 : (nW != 0) = true
  · rw [if_pos h1]
    simp only [bne_iff_ne, ne_eq] at h1
    omega
  · rw [if_neg h1]
    simp only [bne_iff_ne, ne_eq, not_not] at h1
    by_cases h2 : (nR != 0) = true
    · rw [if_pos h2]
      simp only [bne_iff_ne, ne_eq] at h2
      omega
    · rw [if_neg h2]
      simp only [bne_iff_ne, ne_eq, not_not] at h2
      omega

theorem runToDone_mono {width : Nat} {cpha lsb : Bool} :
    ∀ fuel s x, runToDone width cpha lsb fuel s = some x →
      ∀ extra, runToDone width cpha lsb (fuel + extra) s = some x := by
  intro fuel
  induction fuel with
  | zero =>
    intro s x h
    simp [runToDone] at h
  | succ fuel ih =>
    intro s x h extra
    rw [(by omega : fuel + 1 + extra = (fuel + extra) + 1)]
    rw [runToDone] at h ⊢
    by_cases hd : donePulse s = true
    · rw [if_pos hd] at h ⊢
      exact h
    · rw [if_neg hd] at h ⊢
      exact ih _ _ h extra

/-- Composite of one loopback sample edge and the following shift edge:
exactly the per-step transform of `_simulate_shifts`. -/
theorem sampshift {d width : Nat} (hw : 2 ≤ width) (hd : d < 2 ^ width) (lsb : Bool) :
    regShift (regSample d width lsb (regO d width lsb)) width lsb =
      if lsb then hstep width d else gstep width d := by
  cases lsb
  · rw [loop_sample_msb (by omega) hd]
    rw [shift_eq_rol (by omega) (sampl_lt (by omega) hd) (sampl_bit_eq hw hd)]
    rfl
  · rw [loop_sample_lsb (by omega) hd]
    rw [shift_eq_ror (by omega) (sampr_lt (by omega) hd) (sampr_bit_eq hw hd)]
    rfl

theorem simulate_shifts_unroll (d width : Nat) (lsb : Bool) (j : Nat) :
    simulate_shifts d (j + 2) lsb width =
      simulate_shifts (if lsb then hstep width d else gstep width d) (j + 1) lsb width := by
  unfold simulate_shifts
  cases lsb
  · simp only [Bool.false_eq_true, if_false]
    rw [(by omega : j + 2 - 1 = j + 1), (by omega : j + 1 - 1 = j),
      Function.iterate_succ_apply]
  · simp only [if_true]
    rw [(by omega : j + 2 - 1 = j + 1), (by omega : j + 1 - 1 = j),
      Function.iterate_succ_apply]

/-- Loopback transfer body: from SETUP with `k + 1` samples remaining, the run
terminates at the done pulse with exactly the `_simulate_shifts` value. -/
theorem run_from_setup {width : Nat} (hw : 2 ≤ width) (cpha lsb : Bool) :
    ∀ k d nW nR, d < 2 ^ width → nW + nR = k + 1 →
      runToDone width cpha lsb (2 * k + 2) ⟨.SETUP, d, nW, nR⟩ =
        some (simulate_shifts d (k + 1) lsb width) := by
  intro k
  induction k with
  | zero =>
    intro d nW nR hd hsum
    rw [(by omega : 2 * 0 + 2 = 1 + 1), runToDone]
    rw [if_neg (by simp [donePulse, isHold] : ¬ donePulse ⟨.SETUP, d, nW, nR⟩ = true)]
    rw [edgeStep_setup, runToDone]
    have hz : bitsNext nW nR = (0, 0) := by
      have := bitsNext_sum hsum
      have h1 : (bitsNext nW nR).1 = 0 := by omega
      have h2 : (bitsNext nW nR).2 = 0 := by omega
      rw [Prod.ext_iff]
      exact ⟨h1, h2⟩
    rw [hz]
    rw [if_pos (by simp [donePulse, isHold, bitsDone] :
      donePulse ⟨.HOLD, regSample d width lsb (regO d width lsb), (0, 0).1, (0, 0).2⟩ = true)]
    unfold simulate_shifts
    rw [(by omega : 0 + 1 - 1 = 0)]
    cases lsb
    · simp only [Bool.false_eq_true, if_false, Function.iterate_zero_apply]
      rw [loop_sample_msb (by omega) hd]
    · simp only [if_true, Function.iterate_zero_apply]
      rw [loop_sample_lsb (by omega) hd]
  | succ j ih =>
    intro d nW nR hd hsum
    rw [(by omega : 2 * (j + 1) + 2 = (2 * j + 3) + 1), runToDone]
    rw [if_neg (by simp [donePulse, isHold] : ¬ donePulse ⟨.SETUP, d, nW, nR⟩ = true)]
    rw [edgeStep_setup]
    have hsum2 : (bitsNext nW nR).1 + (bitsNext nW nR).2 = j + 1 := bitsNext_sum hsum
    rw [(by omega : 2 * j + 3 = (2 * j + 2) + 1), runToDone]
    rw [if_neg (by
      simp only [donePulse, isHold, Bool.true_and]
      rw [bitsDone_false hsum2]
      simp)]
    rw [edgeStep_hold_continue width cpha lsb _ _ _ (bitsDone_false hsum2)]
    rw [sampshift hw hd lsb]
    have hd2 : (if lsb = true then hstep width d else gstep width d) < 2 ^ width := by
      cases lsb
      · simpa using gstep_lt (by omega) hd
      · simpa using hstep_lt (by omega) hd
    rw [ih _ _ _ hd2 hsum2]
    rw [← simulate_shifts_unroll]

/-! ### Claim C1 -/

/-- C1: loopback shift periodicity. For every initial register value `v`, bit
order `lsb`, clock phase, and lengths with `nWrite + nRead ≥ 2`, with mosi
looped back to miso, the register value latched at the done pulse equals
`_simulate_shifts` applied to `v`, and that value is periodic in the number of
samples with period `width - 1`. -/
theorem c1_loopback_shift_periodicity (width v nWrite nRead : Nat) (lsb cpha : Bool)
    (hw : 2 ≤ width) (hv : v < 2 ^ width) (hn : 2 ≤ nWrite + nRead) :
    runToDone width cpha lsb (2 * (nWrite + nRead) + 2)
        (edgeStep width cpha lsb true ⟨.IDLE, v, nWrite, nRead⟩) =
      some (simulate_shifts v (nWrite + nRead) lsb width) ∧
    simulate_shifts v (nWrite + nRead + (width - 1)) lsb width =
      simulate_shifts v (nWrite + nRead) lsb width := by
  constructor
  · rw [edgeStep_idle]
    have hrun := run_from_setup hw cpha lsb ((nWrite + nRead) - 1) v nWrite nRead hv
      (by omega)
    rw [(by omega : (nWrite + nRead) - 1 + 1 = nWrite + nRead)] at hrun
    cases cpha
    · simp only [Bool.false_eq_true, if_false]
      have hfin := runToDone_mono _ _ _ hrun 2
      rw [(by omega : 2 * ((nWrite + nRead) - 1) + 2 + 2 = 2 * (nWrite + nRead) + 2)]
        at hfin
      exact hfin
    · simp only [if_true]
      rw [(by omega : 2 * (nWrite + nRead) + 2 = (2 * (nWrite + nRead) + 1) + 1),
        runToDone]
      rw [if_neg (by simp [donePulse, isHold] :
        ¬ donePulse ⟨.WAIT, v, nWrite, nRead⟩ = true)]
      rw [edgeStep_wait_continue width true lsb v nWrite nRead
        (bitsDone_false (show nWrite + nRead = ((nWrite + nRead) - 1) + 1 by omega))]
      have hfin := runToDone_mono _ _ _ hrun 1
      rw [(by omega : 2 * ((nWrite + nRead) - 1) + 2 + 1 = 2 * (nWrite + nRead) + 1)]
        at hfin
      exact hfin
  · have hm : nWrite + nRead + (width - 1) - 1 = ((nWrite + nRead) - 1) + (width - 1) := by
      omega
    unfold simulate_shifts
    cases lsb
    · simp only [Bool.false_eq_true, if_false]
      rw [hm, msb_period hw hv ((nWrite + nRead) - 1)]
    · simp only [if_true]
      rw [hm, lsb_period hw hv ((nWrite + nRead) - 1)]

theorem c1_loopback_shift_periodicity_witness :
    2 ≤ 4 ∧ 9 < 2 ^ 4 ∧ 2 ≤ 2 + 1 ∧
    (runToDone 4 true true (2 * (2 + 1) + 2)
        (edgeStep 4 true true true ⟨.IDLE, 9, 2, 1⟩) =
      some (simulate_shifts 9 (2 + 1) true 4) ∧
    simulate_shifts 9 (2 + 1 + (4 - 1)) true 4 = simulate_shifts 9 (2 + 1) true 4) :=
  ⟨by decide, by decide, by decide,
    c1_loopback_shift_periodicity 4 9 2 1 true true (by decide) (by decide) (by decide)⟩

/-! ### Claim C3 -/

/-- C3: chaining invariant. If `start` is asserted at the HOLD edge where the
bit counter reports done, the FSM moves straight to SETUP (chip select stays
asserted, never passing IDLE); and the FSM reaches IDLE (dropping chip select)
only from an idle state with no start, from the HOLD completion edge with no
start pending and `clk_phase` set, or from WAIT with the counter done. -/
theorem c3_chaining_invariant (s : FsmState) (start done cpha : Bool) :
    (fsmStep .HOLD true true cpha = .SETUP ∧ csOf (fsmStep .HOLD true true cpha) = true) ∧
    (csOf (fsmStep s start done cpha) = false →
      s = .IDLE ∨ (s = .HOLD ∧ done = true ∧ start = false ∧ cpha = true) ∨
        (s = .WAIT ∧ done = true)) := by
  constructor
  · cases cpha <;> exact ⟨rfl, rfl⟩
  · intro h
    cases s <;> cases start <;> cases done <;> cases cpha <;> simp_all [fsmStep, csOf]

theorem c3_chaining_invariant_witness :
    (fsmStep .HOLD true true false = .SETUP ∧
      csOf (fsmStep .HOLD true true false) = true) ∧
    (FsmState.WAIT = FsmState.IDLE ∨
      (FsmState.WAIT = FsmState.HOLD ∧ true = true ∧ false = false ∧ false = true) ∨
      (FsmState.WAIT = FsmState.WAIT ∧ true = true)) :=
  ⟨(c3_chaining_invariant .WAIT false true false).1,
    (c3_chaining_invariant .WAIT false true false).2 (by decide)⟩

/-! ### Claim C5 -/

/-- Edge trace of a transfer started (via the IDLE edge with `start`) with
`write_length = 0`, `read_length = 0` and `clk_phase = 1`. -/
def c5trace (width : Nat) (lsb : Bool) (v : Nat) : Nat → MState
  | 0 => ⟨.IDLE, v, 0, 0⟩
  | t + 1 => (edgeStep width true lsb false)^[t] (edgeStep width true lsb true ⟨.IDLE, v, 0, 0⟩)

/-- C5 counterexample: with both lengths zero and `clk_phase = 1` the FSM goes
IDLE, WAIT, IDLE and stays there; the done pulse fires at no edge of the whole
run (zero times, not exactly once), as the FSM never enters HOLD. -/
theorem c5_zero_length_counterexample :
    ((List.range 8).map (fun t => donePulse (c5trace 32 false 5 t))).count true = 0 ∧
    c5trace 32 false 5 1 = ⟨.WAIT, 5, 0, 0⟩ ∧
    c5trace 32 false 5 2 = ⟨.IDLE, 5, 0, 0⟩ ∧
    edgeStep 32 true false false ⟨.IDLE, 5, 0, 0⟩ = ⟨.IDLE, 5, 0, 0⟩ := by decide

/-- C5 amended: starting a transfer with both lengths zero while
`clk_phase = 1` never produces a done pulse (the FSM takes IDLE, WAIT, IDLE
without entering HOLD), and the data register is unchanged at every edge. -/
theorem c5_zero_length_amended (width : Nat) (lsb : Bool) (v t : Nat) :
    donePulse (c5trace width lsb v t) = false ∧ (c5trace width lsb v t).data = v := by
  have hstay : edgeStep width true lsb false ⟨.IDLE, v, 0, 0⟩ = ⟨.IDLE, v, 0, 0⟩ := rfl
  match t with
  | 0 => exact ⟨rfl, rfl⟩
  | 1 => exact ⟨rfl, rfl⟩
  | t + 2 =>
    have h1 : c5trace width lsb v (t + 2) = ⟨.IDLE, v, 0, 0⟩ := by
      show (edgeStep width true lsb false)^[t + 1]
        (edgeStep width true lsb true ⟨.IDLE, v, 0, 0⟩) = _
      rw [Function.iterate_succ_apply]
      rw [(rfl : edgeStep width true lsb false (edgeStep width true lsb true
        ⟨.IDLE, v, 0, 0⟩) = ⟨.IDLE, v, 0, 0⟩)]
      exact Function.iterate_fixed hstay t
    rw [h1]
    exact ⟨rfl, rfl⟩

/-! ### Claim C6 -/

/-- C6 counterexample: in lsb-first mode a sample of input bit 1 into an
all-zero 32-bit register sets bit 31 (the MSB), not bit 0 as the claim
states. -/
theorem c6_sample_position_counterexample :
    (regSample 0 32 true true).testBit 0 = false ∧
    (regSample 0 32 true true).testBit 31 = true ∧
    regSample 0 32 true true = 2147483648 := by decide

/-- C6 amended: on a sample the register captures the input bit into the newly
vacated position, namely the MSB (bit `width - 1`) when lsb-first is
configured and the LSB (bit 0) otherwise; other bits below (respectively
above) are unchanged, and the captured bit survives the subsequent shift in
the same position. -/
theorem c6_sample_position_amended (width d : Nat) (i : Bool) (hw : 1 ≤ width)
    (hd : d < 2 ^ width) :
    ((regSample d width true i).testBit (width - 1) = i) ∧
    (∀ k, k < width - 1 → (regSample d width true i).testBit k = d.testBit k) ∧
    ((regShift (regSample d width true i) width true).testBit (width - 1) = i) ∧
    ((regSample d width false i).testBit 0 = i) ∧
    (∀ k, 1 ≤ k → (regSample d width false i).testBit k = d.testBit k) ∧
    ((regShift (regSample d width false i) width false).testBit 0 = i) := by
  refine ⟨?_, ?_, ?_, ?_, ?_, ?_⟩
  · rw [regSample_testBit_lsb hw, if_pos rfl]
  · intro k hk
    rw [regSample_testBit_lsb hw, if_neg (by omega : ¬ k = width - 1), if_pos hk]
  · rw [regShift_testBit_lsb hw (regSample_lt hw hd true i), if_pos rfl,
      regSample_testBit_lsb hw, if_pos rfl]
  · rw [regSample_testBit_msb, if_pos rfl]
  · intro k hk
    rw [regSample_testBit_msb, if_neg (by omega : ¬ k = 0)]
  · rw [regShift_testBit_msb hw (regSample_lt hw hd false i), if_pos rfl,
      regSample_testBit_msb, if_pos rfl]

theorem c6_sample_position_amended_witness :
    1 ≤ 4 ∧ 5 < 2 ^ 4 ∧
    (regSample 5 4 true true).testBit 3 = true ∧
    (regSample 5 4 true true).testBit 1 = Nat.testBit 5 1 ∧
    (regShift (regSample 5 4 true true) 4 true).testBit 3 = true ∧
    (regSample 5 4 false true).testBit 0 = true :=
  ⟨by decide, by decide,
    (c6_sample_position_amended 4 5 true (by decide) (by decide)).1,
    (c6_sample_position_amended 4 5 true (by decide) (by decide)).2.1 1 (by decide),
    (c6_sample_position_amended 4 5 true (by decide) (by decide)).2.2.1,
    (c6_sample_position_amended 4 5 true (by decide) (by decide)).2.2.2.1⟩

/-! ### SPIMaster register file (core.py lines 262-341) -/

/-- The `xfer` record (core.py lines 283-289), fields from bit 0 upward:
cs (16), write_length (6), padding0 (2), read_length (6), padding1 (2). -/
structure XferReg : Type where
  cs : Nat
  write_length : Nat
  padding0 : Nat
  read_length : Nat
  padding1 : Nat
deriving DecidableEq

/-- Decode of a 32-bit bus word into the `xfer` record fields, as performed by
`xfer.raw_bits().eq(wbus.dat_w)` with the record layout above. -/
def decodeXfer (v : Nat) : XferReg :=
  ⟨v &&& 0xFFFF, (v >>> 16) &&& 0x3F, (v >>> 22) &&& 0x3, (v >>> 24) &&& 0x3F,
    (v >>> 30) &&& 0x3⟩

/-- Decode following the claim's words instead (cs in bits 31:16,
write_length in bits 15:10, read_length in bits 7:2, 2-bit gaps below each
length); stated only for comparison against `decodeXfer` from the source. -/
def decodeXferClaim (v : Nat) : XferReg :=
  ⟨(v >>> 16) &&& 0xFFFF, (v >>> 10) &&& 0x3F, (v >>> 8) &&& 0x3,
    (v >>> 2) &&& 0x3F, v &&& 0x3⟩

/-- The `config` record (core.py lines 268-280), fields from bit 0 upward. -/
structure ConfigReg : Type where
  offline : Bool
  active : Bool
  pending : Bool
  cs_polarity : Bool
  clk_polarity : Bool
  clk_phase : Bool
  lsb_first : Bool
  half_duplex : Bool
  padding : Nat
  div_write : Nat
  div_read : Nat
deriving DecidableEq

/-- Decode of a 32-bit bus word into the `config` record fields. -/
def decodeConfig (v : Nat) : ConfigReg :=
  ⟨v.testBit 0, v.testBit 1, v.testBit 2, v.testBit 3, v.testBit 4, v.testBit 5,
    v.testBit 6, v.testBit 7, (v >>> 8) &&& 0xFF, (v >>> 16) &&& 0xFF,
    (v >>> 24) &&& 0xFF⟩

def bit (b : Bool) : Nat := if b then 1 else 0

/-- Reassembled read value of the `config` record, `config.raw_bits()`. -/
def configRaw (c : ConfigReg) : Nat :=
  bit c.offline ||| (bit c.active <<< 1) ||| (bit c.pending <<< 2) |||
  (bit c.cs_polarity <<< 3) ||| (bit c.clk_polarity <<< 4) |||
  (bit c.clk_phase <<< 5) ||| (bit c.lsb_first <<< 6) |||
  (bit c.half_duplex <<< 7) ||| (c.padding <<< 8) ||| (c.div_write <<< 16) |||
  (c.div_read <<< 24)

/-- Reassembled read value of the `xfer` record, `xfer.raw_bits()`. -/
def xferRaw (x : XferReg) : Nat :=
  x.cs ||| (x.write_length <<< 16) ||| (x.padding0 <<< 22) |||
  (x.read_length <<< 24) ||| (x.padding1 <<< 30)

/-- Master-owned synchronous state of SPIMaster: the pending flag, the
registered wishbone ack, the two halves of the double-buffered data register,
the latched chip-select mask, and the `xfer` and `config` records. -/
structure MasterState : Type where
  pending : Bool
  ack : Bool
  data_read : Nat
  data_write : Nat
  cs : Nat
  xfer : XferReg
  config : ConfigReg
deriving DecidableEq

/-- Bus and SPI-machine inputs of the SPIMaster sync block on one tick. -/
structure MasterIn : Type where
  cyc : Bool
  stb : Bool
  we : Bool
  adr : Nat
  dat_w : Nat
  spi_done : Bool
  spi_cs : Bool
  spi_reg_data : Nat
deriving DecidableEq

/-- `spi.start = pending & (~spi.cs | spi.done)` (core.py line 305). -/
def spiStart (s : MasterState) (i : MasterIn) : Bool :=
  s.pending && (!i.spi_cs || i.spi_done)

/-- Combinational read data `wbus.dat_r` (core.py lines 302-304); a migen
`Array` mux leaves the comb default 0 for addresses past the end. -/
def masterDatR (s : MasterState) (adr : Nat) : Nat :=
  if adr = 0 then s.data_read
  else if adr = 1 then xferRaw s.xfer
  else if adr = 2 then configRaw s.config
  else 0

/-- One synchronous tick of the SPIMaster register file (core.py lines
311-341), with later assignments overriding earlier ones as in migen. The
values this block loads into the SPI machine on `spi.start` (bit counters,
shift register contents) are registers of the machine model; this state holds
the master-owned registers only. -/
def masterStep (s : MasterState) (i : MasterIn) : MasterState :=
  let start := spiStart s i
  let data_read1 := if i.spi_done then i.spi_reg_data else s.data_read
  let cs1 := if start then s.xfer.cs else s.cs
  let pending1 := if start then false else s.pending
  let ack1 := i.cyc && i.stb && (!i.we || i.adr != 0 || !s.pending || i.spi_done)
  let ack2 := if s.ack then false else ack1
  let writeEn := s.ack && i.we
  let data_write2 := if writeEn && i.adr == 0 then i.dat_w else s.data_write
  let xfer2 := if writeEn && i.adr == 1 then decodeXfer i.dat_w else s.xfer
  let config2 := if writeEn && i.adr == 2 then decodeConfig i.dat_w else s.config
  let pending2 := if writeEn && i.adr == 0 then true else pending1
  let config3 : ConfigReg :=
    ⟨config2.offline, i.spi_cs, s.pending, config2.cs_polarity, config2.clk_polarity,
      config2.clk_phase, config2.lsb_first, config2.half_duplex, config2.padding,
      config2.div_write, config2.div_read⟩
  ⟨pending2, ack2, data_read1, data_write2, cs1, xfer2, config3⟩

/-! ### Claim C2 -/

/-- C2: double-buffer backpressure. A data-register write request with no
pending transfer is acknowledged on this tick (the registered ack rises);
with a transfer pending it is acknowledged only when the in-flight transfer
pulses `done`, and the cycle the ack is high the write buffer is overwritten
and `pending` set. -/
theorem c2_backpressure (s : MasterState) (i : MasterIn) :
    (i.cyc = true → i.stb = true → i.we = true → i.adr = 0 → s.ack = false →
      ((s.pending = false → (masterStep s i).ack = true) ∧
       (s.pending = true → i.spi_done = false → (masterStep s i).ack = false) ∧
       (s.pending = true → i.spi_done = true → (masterStep s i).ack = true))) ∧
    (s.ack = true → i.we = true → i.adr = 0 →
      (masterStep s i).pending = true ∧ (masterStep s i).data_write = i.dat_w) := by
  constructor
  · intro hcyc hstb hwe hadr hack
    refine ⟨?_, ?_, ?_⟩
    · intro hp
      simp [masterStep, hcyc, hstb, hwe, hadr, hack, hp]
    · intro hp hdone
      simp [masterStep, hcyc, hstb, hwe, hadr, hack, hp, hdone]
    · intro hp hdone
      simp [masterStep, hcyc, hstb, hwe, hadr, hack, hp, hdone]
  · intro hack hwe hadr
    constructor
    · simp [masterStep, hack, hwe, hadr]
    · simp [masterStep, hack, hwe, hadr]

theorem c2_backpressure_witness :
    ((masterStep ⟨false, false, 0, 0, 0, decodeXfer 0, decodeConfig 1⟩
        ⟨true, true, true, 0, 42, false, false, 0⟩).ack = true) ∧
    ((masterStep ⟨true, false, 0, 0, 0, decodeXfer 0, decodeConfig 1⟩
        ⟨true, true, true, 0, 42, false, false, 0⟩).ack = false) ∧
    ((masterStep ⟨true, true, 0, 0, 0, decodeXfer 0, decodeConfig 1⟩
        ⟨true, true, true, 0, 42, false, false, 0⟩).pending = true) ∧
    ((masterStep ⟨true, true, 0, 0, 0, decodeXfer 0, decodeConfig 1⟩
        ⟨true, true, true, 0, 42, false, false, 0⟩).data_write = 42) :=
  ⟨((c2_backpressure ⟨false, false, 0, 0, 0, decodeXfer 0, decodeConfig 1⟩
      ⟨true, true, true, 0, 42, false, false, 0⟩).1 rfl rfl rfl rfl rfl).1 rfl,
   (((c2_backpressure ⟨true, false, 0, 0, 0, decodeXfer 0, decodeConfig 1⟩
      ⟨true, true, true, 0, 42, false, false, 0⟩).1 rfl rfl rfl rfl rfl).2.1 rfl rfl),
   ((c2_backpressure ⟨true, true, 0, 0, 0, decodeXfer 0, decodeConfig 1⟩
      ⟨true, true, true, 0, 42, false, false, 0⟩).2 rfl rfl rfl).1,
   ((c2_backpressure ⟨true, true, 0, 0, 0, decodeXfer 0, decodeConfig 1⟩
      ⟨true, true, true, 0, 42, false, false, 0⟩).2 rfl rfl rfl).2⟩

/-! ### Claim C9 -/

theorem bit_testBit_zero (b : Bool) : (bit b).testBit 0 = b := by
  cases b <;> decide

theorem bit_testBit_pos (b : Bool) {k : Nat} (hk : 1 ≤ k) : (bit b).testBit k = false := by
  apply Nat.testBit_eq_false_of_lt
  have := two_le_two_pow hk
  cases b <;> simp [bit] <;> omega

theorem configRaw_testBit_one (c : ConfigReg) : (configRaw c).testBit 1 = c.active := by
  unfold configRaw
  simp [Nat.testBit_lor, Nat.testBit_shiftLeft, bit_testBit_zero, bit_testBit_pos]
  cases c.active <;> rfl

theorem configRaw_testBit_two (c : ConfigReg) : (configRaw c).testBit 2 = c.pending := by
  unfold configRaw
  simp [Nat.testBit_lor, Nat.testBit_shiftLeft, bit_testBit_zero, bit_testBit_pos]
  cases c.pending <;> rfl

/-- C9: the `active` and `pending` bits of the host-visible config register
always reflect live state after every tick (`active` = sequencer chip select,
`pending` = buffered-transfer flag), for every input, in particular for every
host write; a config write can therefore never set or clear them. -/
theorem c9_live_status_bits (s : MasterState) (i : MasterIn) :
    (masterStep s i).config.active = i.spi_cs ∧
    (masterStep s i).config.pending = s.pending ∧
    (masterDatR (masterStep s i) 2).testBit 1 = i.spi_cs ∧
    (masterDatR (masterStep s i) 2).testBit 2 = s.pending := by
  have ha : (masterStep s i).config.active = i.spi_cs := by
    simp [masterStep]
  have hp : (masterStep s i).config.pending = s.pending := by
    simp [masterStep]
  refine ⟨ha, hp, ?_, ?_⟩
  · show (configRaw (masterStep s i).config).testBit 1 = i.spi_cs
    rw [configRaw_testBit_one, ha]
  · show (configRaw (masterStep s i).config).testBit 2 = s.pending
    rw [configRaw_testBit_two, hp]

/-! ### Claim C10 -/

/-- C10: the readable data value changes only on a tick with the done pulse,
where it latches the shift register contents; the write buffer changes only on
an acknowledged data-register write, which leaves the readable value alone. -/
theorem c10_data_read_frame (s : MasterState) (i : MasterIn) :
    (masterStep s i).data_read =
      (if i.spi_done = true then i.spi_reg_data else s.data_read) ∧
    (masterStep s i).data_write =
      (if s.ack = true ∧ i.we = true ∧ i.adr = 0 then i.dat_w else s.data_write) := by
  constructor
  · rfl
  · show (if (s.ack && i.we) && i.adr == 0 then i.dat_w else s.data_write) = _
    by_cases h : s.ack = true ∧ i.we = true ∧ i.adr = 0
    · rw [if_pos h]
      obtain ⟨h1, h2, h3⟩ := h
      rw [if_pos (by simp [h1, h2, h3])]
    · rw [if_neg h]
      rw [if_neg (by
        intro hc
        apply h
        simp only [Bool.and_eq_true, beq_iff_eq] at hc
        exact ⟨hc.1.1, hc.1.2, hc.2⟩)]

/-! ### Claim C7 -/

/-- C7 counterexample: writing the word 65536 (bit 16 set) to `xfer` yields
`write_length = 1` and `cs = 0` in the code, while the claimed layout would
put that bit in the cs mask (`cs = 1`, `write_length = 0`). -/
theorem c7_xfer_layout_counterexample :
    decodeXfer 65536 ≠ decodeXferClaim 65536 ∧
    (decodeXfer 65536).write_length = 1 ∧ (decodeXfer 65536).cs = 0 ∧
    (decodeXferClaim 65536).cs = 1 ∧ (decodeXferClaim 65536).write_length = 0 := by
  decide

/-- C7 amended: an acknowledged bus write of a word to address 1 places the
chip-select mask in bits 15:0, write_length in bits 21:16 and read_length in
bits 29:24 of the written word (2-bit reserved gaps at 23:22 and 31:30). -/
theorem c7_xfer_layout_amended (s : MasterState) (i : MasterIn) (hack : s.ack = true)
    (hwe : i.we = true) (hadr : i.adr = 1) :
    (∀ k, k < 16 → (masterStep s i).xfer.cs.testBit k = i.dat_w.testBit k) ∧
    (∀ k, k < 6 →
      (masterStep s i).xfer.write_length.testBit k = i.dat_w.testBit (16 + k)) ∧
    (∀ k, k < 6 →
      (masterStep s i).xfer.read_length.testBit k = i.dat_w.testBit (24 + k)) := by
  have hx : (masterStep s i).xfer = decodeXfer i.dat_w := by
    simp [masterStep, hack, hwe, hadr]
  rw [hx]
  unfold decodeXfer
  refine ⟨?_, ?_, ?_⟩
  · intro k hk
    show (i.dat_w &&& 0xFFFF).testBit k = _
    rw [(by norm_num : (0xFFFF : Nat) = 2 ^ 16 - 1), Nat.testBit_land,
      Nat.testBit_two_pow_sub_one, decide_eq_true hk, Bool.and_true]
  · intro k hk
    show ((i.dat_w >>> 16) &&& 0x3F).testBit k = _
    rw [(by norm_num : (0x3F : Nat) = 2 ^ 6 - 1), Nat.testBit_land,
      Nat.testBit_two_pow_sub_one, decide_eq_true hk, Bool.and_true,
      Nat.testBit_shiftRight]
  · intro k hk
    show ((i.dat_w >>> 24) &&& 0x3F).testBit k = _
    rw [(by norm_num : (0x3F : Nat) = 2 ^ 6 - 1), Nat.testBit_land,
      Nat.testBit_two_pow_sub_one, decide_eq_true hk, Bool.and_true,
      Nat.testBit_shiftRight]

theorem c7_xfer_layout_amended_witness :
    (masterStep ⟨false, true, 0, 0, 0, decodeXfer 0, decodeConfig 1⟩
        ⟨true, true, true, 1, 0x87654321, false, false, 0⟩).xfer.cs.testBit 0 =
      Nat.testBit 0x87654321 0 ∧
    (masterStep ⟨false, true, 0, 0, 0, decodeXfer 0, decodeConfig 1⟩
        ⟨true, true, true, 1, 0x87654321, false, false, 0⟩).xfer.write_length.testBit 2 =
      Nat.testBit 0x87654321 18 ∧
    (masterStep ⟨false, true, 0, 0, 0, decodeXfer 0, decodeConfig 1⟩
        ⟨true, true, true, 1, 0x87654321, false, false, 0⟩).xfer.read_length.testBit 1 =
      Nat.testBit 0x87654321 25 :=
  ⟨(c7_xfer_layout_amended _ _ rfl rfl rfl).1 0 (by decide),
   (c7_xfer_layout_amended _ _ rfl rfl rfl).2.1 2 (by decide),
   (c7_xfer_layout_amended _ _ rfl rfl rfl).2.2 1 (by decide)⟩

/-! ### SPIClockGen (core.py lines 8-33) -/

/-- Synchronous state of SPIClockGen: down counter, internal bias flip-flop,
and the clock line (reset value 1). -/
structure CGState : Type where
  cnt : Nat
  bias : Bool
  clk : Bool
deriving DecidableEq

/-- `edge = (cnt == 0) & ~bias` (core.py lines 18-21). -/
def cgEdge (s : CGState) : Bool := (s.cnt == 0) && !s.bias

/-- One enabled tick of SPIClockGen (core.py lines 22-33): while counting,
decrement; on the zero tick with the bias flag set, clear the flag without an
edge (stretching this half period by one tick); on an edge tick, reload `cnt`
from `load[1:]`, latch `bias = load[0] & (clk ^ bias_in)`, and toggle
`clk`. -/
def cgStep (load : Nat) (biasIn : Bool) (s : CGState) : CGState :=
  if cgEdge s then ⟨load >>> 1, load.testBit 0 && (s.clk ^^ biasIn), !s.clk⟩
  else if s.cnt == 0 then ⟨s.cnt, false, s.clk⟩
  else ⟨s.cnt - 1, s.bias, s.clk⟩

/-- `t` enabled ticks of SPIClockGen. -/
def cgRun (load : Nat) (biasIn : Bool) (t : Nat) (s : CGState) : CGState :=
  (cgStep load biasIn)^[t] s

theorem cgStep_count {load c : Nat} {biasIn b k : Bool} (hc : c ≠ 0) :
    cgStep load biasIn ⟨c, b, k⟩ = ⟨c - 1, b, k⟩ := by
  unfold cgStep cgEdge
  simp [hc]

theorem cgRun_count (load : Nat) (biasIn : Bool) (b k : Bool) :
    ∀ t c, t ≤ c → cgRun load biasIn t ⟨c, b, k⟩ = ⟨c - t, b, k⟩ := by
  intro t
  induction t with
  | zero => intro c h; rfl
  | succ t ih =>
    intro c h
    show (cgStep load biasIn)^[t + 1] _ = _
    rw [Function.iterate_succ_apply, cgStep_count (by omega : c ≠ 0)]
    have hres := ih (c - 1) (by omega)
    unfold cgRun at hres
    rw [hres, (by omega : c - 1 - t = c - (t + 1))]

theorem cg_half_false (load : Nat) (biasIn k : Bool)
    (hb : (load.testBit 0 && (k ^^ biasIn)) = false) :
    (∀ t, 0 < t → t < load >>> 1 + 1 →
      cgEdge (cgRun load biasIn t ⟨0, false, k⟩) = false) ∧
    cgRun load biasIn (load >>> 1 + 1) ⟨0, false, k⟩ = ⟨0, false, !k⟩ := by
  have hstep : cgStep load biasIn ⟨0, false, k⟩ = ⟨load >>> 1, false, !k⟩ := by
    show (⟨load >>> 1, load.testBit 0 && (k ^^ biasIn), !k⟩ : CGState) = _
    rw [hb]
  constructor
  · intro t ht1 ht2
    obtain ⟨u, rfl⟩ : ∃ u, t = u + 1 := ⟨t - 1, by omega⟩
    show cgEdge ((cgStep load biasIn)^[u + 1] _) = false
    rw [Function.iterate_succ_apply, hstep]
    have hres := cgRun_count load biasIn false (!k) u (load >>> 1) (by omega)
    unfold cgRun at hres
    rw [hres]
    unfold cgEdge
    simp only [Bool.and_eq_false_imp, beq_iff_eq]
    intro hz
    omega
  · show (cgStep load biasIn)^[load >>> 1 + 1] _ = _
    rw [Function.iterate_succ_apply, hstep]
    have hres := cgRun_count load biasIn false (!k) (load >>> 1) (load >>> 1) (by omega)
    unfold cgRun at hres
    rw [hres, Nat.sub_self]

theorem cg_half_true (load : Nat) (biasIn k : Bool)
    (hb : (load.testBit 0 && (k ^^ biasIn)) = true) :
    (∀ t, 0 < t → t < load >>> 1 + 2 →
      cgEdge (cgRun load biasIn t ⟨0, false, k⟩) = false) ∧
    cgRun load biasIn (load >>> 1 + 2) ⟨0, false, k⟩ = ⟨0, false, !k⟩ := by
  have hstep : cgStep load biasIn ⟨0, false, k⟩ = ⟨load >>> 1, true, !k⟩ := by
    show (⟨load >>> 1, load.testBit 0 && (k ^^ biasIn), !k⟩ : CGState) = _
    rw [hb]
  constructor
  · intro t ht1 ht2
    obtain ⟨u, rfl⟩ : ∃ u, t = u + 1 := ⟨t - 1, by omega⟩
    show cgEdge ((cgStep load biasIn)^[u + 1] _) = false
    rw [Function.iterate_succ_apply, hstep]
    have hres := cgRun_count load biasIn true (!k) u (load >>> 1) (by omega)
    unfold cgRun at hres
    rw [hres]
    unfold cgEdge
    simp
  · show (cgStep load biasIn)^[load >>> 1 + 2] _ = _
    rw [(by omega : load >>> 1 + 2 = (load >>> 1 + 1) + 1),
      Function.iterate_succ_apply, hstep, Function.iterate_succ_apply']
    have hres := cgRun_count load biasIn true (!k) (load >>> 1) (load >>> 1) (by omega)
    unfold cgRun at hres
    rw [hres, Nat.sub_self]
    rfl

/-- One half period of the generated clock: from an edge state the next edge
comes after `load >>> 1 + 1 + bias` enabled ticks, with the clock line
toggled and no edge in between. -/
theorem cg_half (load : Nat) (biasIn k : Bool) :
    (∀ t, 0 < t → t < load >>> 1 + 1 + bit (load.testBit 0 && (k ^^ biasIn)) →
      cgEdge (cgRun load biasIn t ⟨0, false, k⟩) = false) ∧
    cgRun load biasIn (load >>> 1 + 1 + bit (load.testBit 0 && (k ^^ biasIn)))
        ⟨0, false, k⟩ = ⟨0, false, !k⟩ := by
  cases hb : load.testBit 0 && (k ^^ biasIn)
  · have h := cg_half_false load biasIn k hb
    simpa [bit] using h
  · have h := cg_half_true load biasIn k hb
    have harith : load >>> 1 + 1 + bit true = load >>> 1 + 2 := by
      simp [bit]
    rw [harith]
    exact h

theorem cgRun_add (load : Nat) (biasIn : Bool) (m n : Nat) (s : CGState) :
    cgRun load biasIn (m + n) s = cgRun load biasIn m (cgRun load biasIn n s) := by
  unfold cgRun
  rw [Function.iterate_add_apply]

/-! ### Claim C8 -/

/-- C8: clock divisor relation. From an edge state with clock level `k`, for
every divisor `div` and bias input (`clk_phase`): the next edge comes after
`div >>> 1 + 1 + bias1` ticks with the clock toggled, the edge after that
after another `div >>> 1 + 1 + bias2` ticks with the clock restored, there is
no edge strictly in between, and the two half periods sum to exactly
`div + 2` system clock ticks; for odd `div` exactly one of the two halves is
stretched by the bias mechanism. -/
theorem c8_clock_divisor_relation (div : Nat) (cpha k : Bool) :
    cgEdge ⟨0, false, k⟩ = true ∧
    (∀ t, 0 < t → t < div >>> 1 + 1 + bit (div.testBit 0 && (k ^^ cpha)) →
      cgEdge (cgRun div cpha t ⟨0, false, k⟩) = false) ∧
    cgRun div cpha (div >>> 1 + 1 + bit (div.testBit 0 && (k ^^ cpha)))
        ⟨0, false, k⟩ = ⟨0, false, !k⟩ ∧
    (∀ t, div >>> 1 + 1 + bit (div.testBit 0 && (k ^^ cpha)) < t →
      t < (div >>> 1 + 1 + bit (div.testBit 0 && (k ^^ cpha))) +
        (div >>> 1 + 1 + bit (div.testBit 0 && (!k ^^ cpha))) →
      cgEdge (cgRun div cpha t ⟨0, false, k⟩) = false) ∧
    cgRun div cpha ((div >>> 1 + 1 + bit (div.testBit 0 && (k ^^ cpha))) +
        (div >>> 1 + 1 + bit (div.testBit 0 && (!k ^^ cpha))))
        ⟨0, false, k⟩ = ⟨0, false, k⟩ ∧
    (div >>> 1 + 1 + bit (div.testBit 0 && (k ^^ cpha))) +
        (div >>> 1 + 1 + bit (div.testBit 0 && (!k ^^ cpha))) = div + 2 := by
  obtain ⟨h1a, h1b⟩ := cg_half div cpha k
  obtain ⟨h2a, h2b⟩ := cg_half div cpha (!k)
  have hsum : (div >>> 1 + 1 + bit (div.testBit 0 && (k ^^ cpha))) +
      (div >>> 1 + 1 + bit (div.testBit 0 && (!k ^^ cpha))) = div + 2 := by
    have hbit : div.testBit 0 = decide (div % 2 = 1) := by
      rw [Nat.testBit_to_div_mod]
      norm_num
    have hx : bit (div.testBit 0 && (k ^^ cpha)) +
        bit (div.testBit 0 && (!k ^^ cpha)) = div % 2 := by
      rcases (by omega : div % 2 = 0 ∨ div % 2 = 1) with h2 | h2 <;>
        cases k <;> cases cpha <;> simp [bit, hbit, h2]
    omega
  refine ⟨rfl, h1a, h1b, ?_, ?_, hsum⟩
  · intro t ht1 ht2
    obtain ⟨u, rfl⟩ :
        ∃ u, t = u + (div >>> 1 + 1 + bit (div.testBit 0 && (k ^^ cpha))) :=
      ⟨t - (div >>> 1 + 1 + bit (div.testBit 0 && (k ^^ cpha))), by omega⟩
    rw [cgRun_add, h1b]
    exact h2a u (by omega) (by omega)
  · rw [(by omega : (div >>> 1 + 1 + bit (div.testBit 0 && (k ^^ cpha))) +
        (div >>> 1 + 1 + bit (div.testBit 0 && (!k ^^ cpha))) =
      (div >>> 1 + 1 + bit (div.testBit 0 && (!k ^^ cpha))) +
        (div >>> 1 + 1 + bit (div.testBit 0 && (k ^^ cpha))))]
    rw [cgRun_add, h1b, h2b]
    simp

theorem c8_clock_divisor_relation_witness :
    cgRun 5 false 4 ⟨0, false, true⟩ = ⟨0, false, false⟩ ∧
    cgEdge (cgRun 5 false 2 ⟨0, false, true⟩) = false ∧
    cgRun 5 false 7 ⟨0, false, true⟩ = ⟨0, false, true⟩ ∧
    (4 + 3 : Nat) = 5 + 2 :=
  ⟨(c8_clock_divisor_relation 5 false true).2.2.1,
   (c8_clock_divisor_relation 5 false true).2.1 2 (by decide) (by decide),
   (c8_clock_divisor_relation 5 false true).2.2.2.2.1,
   (c8_clock_divisor_relation 5 false true).2.2.2.2.2⟩

/-! ### SPIMachine at system-tick granularity (core.py lines 88-160) -/

/-- Full synchronous state of SPIMachine on the system clock: the clock
generator registers, the FSM state, the shift register, the bit counters,
and the `write0` delay register. -/
structure TState : Type where
  cnt : Nat
  bias : Bool
  clk : Bool
  fsm : FsmState
  data : Nat
  nWrite : Nat
  nRead : Nat
  write0 : Bool
deriving DecidableEq

/-- Per-tick inputs of SPIMachine: the start strobe, the values the SPIMaster
loads on start (core.py lines 315-319), the serial input bit, and the two
divisors. -/
structure TIn : Type where
  start : Bool
  inp : Bool
  div_write : Nat
  div_read : Nat
  load_data : Nat
  load_write : Nat
  load_read : Nat
deriving DecidableEq

/-- The clock-generator edge strobe seen by the machine. -/
def tEdge (s : TState) : Bool := (s.cnt == 0) && !s.bias

/-- `cs = ~fsm.ongoing("IDLE")`. -/
def tCs (s : TState) : Bool := csOf s.fsm

/-- The externally visible done pulse (core.py line 158). -/
def tDonePulse (s : TState) : Bool :=
  tEdge s && bitsDone s.nWrite s.nRead && isHold s.fsm

/-- One system-clock tick of SPIMachine composed with the SPIMaster reload on
`start`: the clock generator advances when its clock enable
`start | cs | ~edge` is set, with `load` muxed between the two divisors
(core.py lines 146-153); the FSM, shift register and bit counters advance on
edges; `write0` latches `bits.write` on shifting edges (lines 140-145); and
the master overrides the register data and the counters when `start` is
asserted (lines 315-319, parent sync assignments win). -/
def tickStep (width : Nat) (cpha lsb : Bool) (i : TIn) (s : TState) : TState :=
  let edge := tEdge s
  let cs := tCs s
  let done := bitsDone s.nWrite s.nRead
  let sample := sampleOf s.fsm
  let shift := shiftOf s.fsm i.start done
  let cgce := i.start || cs || !edge
  let load := if s.nWrite != 0 || s.nRead == 0 then i.div_write else i.div_read
  let cg1 : CGState :=
    if cgce then cgStep load cpha ⟨s.cnt, s.bias, s.clk⟩ else ⟨s.cnt, s.bias, s.clk⟩
  let fsm1 := if edge then fsmStep s.fsm i.start done cpha else s.fsm
  let data1 := if edge then regNext s.data width lsb shift sample i.inp else s.data
  let counters :=
    if edge && sample then bitsNext s.nWrite s.nRead else (s.nWrite, s.nRead)
  let write01 := if edge && shift then s.nWrite != 0 else s.write0
  let data2 := if i.start then i.load_data else data1
  let nW2 := if i.start then i.load_write else counters.1
  let nR2 := if i.start then i.load_read else counters.2
  ⟨cg1.cnt, cg1.bias, cg1.clk, fsm1, data2, nW2, nR2, write01⟩

/-- The reset state: counter and bias clear, `clk` reset to 1, FSM in IDLE. -/
def tReset : TState := ⟨0, false, true, .IDLE, 0, 0, 0, false⟩

/-- The driven serial clock line `(spi.cg.clk & spi.cs) ^ clk_polarity`
(core.py line 357). -/
def tClkLine (cpol : Bool) (s : TState) : Bool := (s.clk && tCs s) ^^ cpol

/-- The clock level the machine maintains in each FSM state, for a fixed
`clk_phase`. -/
def clkOf (f : FsmState) (cpha : Bool) : Bool :=
  match f with
  | .IDLE => true
  | .SETUP => cpha
  | .HOLD => !cpha
  | .WAIT => false

/-- Inductive invariant of SPIMachine tying the clock level to the FSM state;
with `clk_phase = 0` the WAIT state is only ever occupied with the bit
counters exhausted. -/
def TInv (cpha : Bool) (s : TState) : Prop :=
  s.clk = clkOf s.fsm cpha ∧
  (cpha = false → s.fsm = .WAIT → s.nWrite = 0 ∧ s.nRead = 0)

theorem tick_fsm (width : Nat) (cpha lsb : Bool) (i : TIn) (s : TState) :
    (tickStep width cpha lsb i s).fsm =
      (if tEdge s then fsmStep s.fsm i.start (bitsDone s.nWrite s.nRead) cpha
       else s.fsm) := rfl

theorem tick_nWrite (width : Nat) (cpha lsb : Bool) (i : TIn) (s : TState) :
    (tickStep width cpha lsb i s).nWrite =
      (if i.start then i.load_write
       else if tEdge s && sampleOf s.fsm then (bitsNext s.nWrite s.nRead).1
       else s.nWrite) := by
  show (if i.start then i.load_write
    else (if tEdge s && sampleOf s.fsm then bitsNext s.nWrite s.nRead
      else (s.nWrite, s.nRead)).1) = _
  by_cases h : (tEdge s && sampleOf s.fsm) = true
  · rw [if_pos h, if_pos h]
  · rw [if_neg h, if_neg h]

theorem tick_nRead (width : Nat) (cpha lsb : Bool) (i : TIn) (s : TState) :
    (tickStep width cpha lsb i s).nRead =
      (if i.start then i.load_read
       else if tEdge s && sampleOf s.fsm then (bitsNext s.nWrite s.nRead).2
       else s.nRead) := by
  show (if i.start then i.load_read
    else (if tEdge s && sampleOf s.fsm then bitsNext s.nWrite s.nRead
      else (s.nWrite, s.nRead)).2) = _
  by_cases h : (tEdge s && sampleOf s.fsm) = true
  · rw [if_pos h, if_pos h]
  · rw [if_neg h, if_neg h]

theorem tick_clk (width : Nat) (cpha lsb : Bool) (i : TIn) (s : TState) :
    (tickStep width cpha lsb i s).clk =
      (if tEdge s && (i.start || tCs s) then !s.clk else s.clk) := by
  by_cases hc : s.cnt = 0 <;> cases hbb : s.bias <;> cases hstq : i.start <;>
    cases hcsq : tCs s <;>
      simp [tickStep, cgStep, cgEdge, tEdge, hc, hbb, hstq, hcsq]

/-! ### Claim C4 -/

/-- C4: no coincident edges. For every clock polarity and phase, the inductive
invariant `TInv` holds at reset and is preserved by every tick whose `start`
input obeys the SPIMaster drive rule (`start` only with chip select idle or at
the done pulse); under the invariant, a tick that toggles the driven serial
clock line never changes the chip select, and conversely. -/
theorem c4_no_coincident_edges (width : Nat) (cpol cpha lsb : Bool) (i : TIn)
    (s : TState) (hstart : i.start = true → tCs s = false ∨ tDonePulse s = true)
    (hinv : TInv cpha s) :
    TInv cpha tReset ∧ TInv cpha (tickStep width cpha lsb i s) ∧
    (tClkLine cpol (tickStep width cpha lsb i s) ≠ tClkLine cpol s →
      tCs (tickStep width cpha lsb i s) = tCs s) := by
  obtain ⟨hclk, hwait⟩ := hinv
  have hreset : TInv cpha tReset := by
    refine ⟨rfl, ?_⟩
    intro hcp hf
    exact absurd hf (by decide)
  cases htE : tEdge s with
  | false =>
    have hf2 : (tickStep width cpha lsb i s).fsm = s.fsm := by
      rw [tick_fsm, htE]
      rfl
    have hc2 : (tickStep width cpha lsb i s).clk = s.clk := by
      rw [tick_clk, htE]
      rfl
    refine ⟨hreset, ⟨?_, ?_⟩, ?_⟩
    · rw [hc2, hf2]
      exact hclk
    · intro hcp hfsm
      rw [hf2] at hfsm
      have hst : i.start = false := by
        cases hstq : i.start
        · rfl
        · exfalso
          rcases hstart hstq with h | h
          · unfold tCs at h
            rw [hfsm] at h
            exact absurd h (by decide)
          · unfold tDonePulse at h
            rw [htE] at h
            simp at h
      have hw2 : (tickStep width cpha lsb i s).nWrite = s.nWrite := by
        rw [tick_nWrite, htE, hst]
        rfl
      have hr2 : (tickStep width cpha lsb i s).nRead = s.nRead := by
        rw [tick_nRead, htE, hst]
        rfl
      rw [hw2, hr2]
      exact hwait hcp hfsm
    · intro hline
      unfold tCs
      rw [hf2]
  | true =>
    by_cases hactive : (i.start || tCs s) = true
    case neg =>
      have hst : i.start = false := by
        cases hstq : i.start
        · rfl
        · exact absurd (by rw [hstq]; rfl) hactive
      have hcs0 : tCs s = false := by
        cases hcsq : tCs s
        · rfl
        · exact absurd (by rw [hst, hcsq]; rfl) hactive
      have hfI : s.fsm = .IDLE := by
        unfold tCs at hcs0
        cases hq : s.fsm <;> rw [hq] at hcs0 <;>
          first
          | rfl
          | exact absurd hcs0 (by decide)
      have hf2 : (tickStep width cpha lsb i s).fsm = s.fsm := by
        rw [tick_fsm, htE, hfI, hst]
        rfl
      have hc2 : (tickStep width cpha lsb i s).clk = s.clk := by
        rw [tick_clk, htE, hst, hcs0]
        rfl
      refine ⟨hreset, ⟨?_, ?_⟩, ?_⟩
      · rw [hc2, hf2]
        exact hclk
      · intro hcp hfsm
        rw [hf2, hfI] at hfsm
        exact absurd hfsm (by decide)
      · intro hline
        unfold tCs
        rw [hf2]
    case pos =>
      have hc2 : (tickStep width cpha lsb i s).clk = !s.clk := by
        rw [tick_clk, htE]
        simp only [Bool.true_and]
        rw [if_pos hactive]
      have hf2 : (tickStep width cpha lsb i s).fsm =
          fsmStep s.fsm i.start (bitsDone s.nWrite s.nRead) cpha := by
        rw [tick_fsm, htE]
        rfl
      cases hfq : s.fsm with
      | IDLE =>
        have hst : i.start = true := by
          cases hstq : i.start
          · exfalso
            unfold tCs at hactive
            rw [hstq, hfq] at hactive
            exact absurd hactive (by decide)
          · rfl
        rw [hfq, hst] at hf2
        have hclk1 : s.clk = true := by
          rw [hclk, hfq]
          rfl
        refine ⟨hreset, ⟨?_, ?_⟩, ?_⟩
        · rw [hc2, hf2, hclk1]
          cases cpha <;> rfl
        · intro hcp hfsm
          rw [hf2, hcp] at hfsm
          simp [fsmStep] at hfsm
        · intro hline
          exfalso
          apply hline
          unfold tClkLine tCs
          rw [hf2, hc2, hclk1, hfq]
          cases cpha <;> rfl
      | SETUP =>
        rw [hfq] at hf2
        have hf3 : (tickStep width cpha lsb i s).fsm = .HOLD := by
          rw [hf2]
          rfl
        have hclk1 : s.clk = cpha := by
          rw [hclk, hfq]
          rfl
        refine ⟨hreset, ⟨?_, ?_⟩, ?_⟩
        · rw [hc2, hf3, hclk1]
          rfl
        · intro hcp hfsm
          rw [hf3] at hfsm
          exact absurd hfsm (by decide)
        · intro hline
          unfold tCs
          rw [hf3, hfq]
          rfl
      | HOLD =>
        have hclk1 : s.clk = !cpha := by
          rw [hclk, hfq]
          rfl
        cases hdq : bitsDone s.nWrite s.nRead with
        | false =>
          have hst : i.start = false := by
            cases hstq : i.start
            · rfl
            · exfalso
              rcases hstart hstq with h | h
              · unfold tCs at h
                rw [hfq] at h
                exact absurd h (by decide)
              · unfold tDonePulse at h
                rw [hdq] at h
                simp at h
          rw [hfq, hdq, hst] at hf2
          have hf3 : (tickStep width cpha lsb i s).fsm = .SETUP := by
            rw [hf2]
            rfl
          refine ⟨hreset, ⟨?_, ?_⟩, ?_⟩
          · rw [hc2, hf3, hclk1]
            cases cpha <;> rfl
          · intro hcp hfsm
            rw [hf3] at hfsm
            exact absurd hfsm (by decide)
          · intro hline
            unfold tCs
            rw [hf3, hfq]
            rfl
        | true =>
          cases hstq : i.start with
          | true =>
            rw [hfq, hdq, hstq] at hf2
            have hf3 : (tickStep width cpha lsb i s).fsm = .SETUP := by
              rw [hf2]
              rfl
            refine ⟨hreset, ⟨?_, ?_⟩, ?_⟩
            · rw [hc2, hf3, hclk1]
              cases cpha <;> rfl
            · intro hcp hfsm
              rw [hf3] at hfsm
              exact absurd hfsm (by decide)
            · intro hline
              unfold tCs
              rw [hf3, hfq]
              rfl
          | false =>
            rw [hfq, hdq, hstq] at hf2
            rcases Bool.eq_false_or_eq_true cpha with hcpq | hcpq
            · have hf3 : (tickStep width cpha lsb i s).fsm = .IDLE := by
                rw [hf2, hcpq]
                rfl
              refine ⟨hreset, ⟨?_, ?_⟩, ?_⟩
              · rw [hc2, hf3, hclk1, hcpq]
                rfl
              · intro hcp hfsm
                rw [hf3] at hfsm
                exact absurd hfsm (by decide)
              · intro hline
                exfalso
                apply hline
                unfold tClkLine tCs
                rw [hf3, hc2, hclk1, hfq, hcpq]
                rfl
            · have hf3 : (tickStep width cpha lsb i s).fsm = .WAIT := by
                rw [hf2, hcpq]
                rfl
              have hzero : s.nWrite = 0 ∧ s.nRead = 0 := by
                have hd := hdq
                simp [bitsDone] at hd
                exact hd
              refine ⟨hreset, ⟨?_, ?_⟩, ?_⟩
              · rw [hc2, hf3, hclk1, hcpq]
                rfl
              · intro hcp hfsm
                rw [tick_nWrite, tick_nRead, hstq, hfq]
                simp only [Bool.false_eq_true, if_false, sampleOf, Bool.and_false]
                exact hzero
              · intro hline
                unfold tCs
                rw [hf3, hfq]
                rfl
      | WAIT =>
        have hclk1 : s.clk = false := by
          rw [hclk, hfq]
          rfl
        have hst : i.start = false := by
          cases hstq : i.start
          · rfl
          · exfalso
            rcases hstart hstq with h | h
            · unfold tCs at h
              rw [hfq] at h
              exact absurd h (by decide)
            · unfold tDonePulse at h
              rw [hfq] at h
              simp [isHold] at h
        cases hdq : bitsDone s.nWrite s.nRead with
        | true =>
          rw [hfq, hdq] at hf2
          have hf3 : (tickStep width cpha lsb i s).fsm = .IDLE := by
            rw [hf2]
            rfl
          refine ⟨hreset, ⟨?_, ?_⟩, ?_⟩
          · rw [hc2, hf3, hclk1]
            rfl
          · intro hcp hfsm
            rw [hf3] at hfsm
            exact absurd hfsm (by decide)
          · intro hline
            exfalso
            apply hline
            unfold tClkLine tCs
            rw [hf3, hc2, hclk1, hfq]
            rfl
        | false =>
          have hcpT : cpha = true := by
            cases hcpq : cpha
            · exfalso
              have hz := hwait hcpq hfq
              rw [hz.1, hz.2] at hdq
              simp [bitsDone] at hdq
            · rfl
          rw [hfq, hdq] at hf2
          have hf3 : (tickStep width cpha lsb i s).fsm = .SETUP := by
            rw [hf2]
            rfl
          refine ⟨hreset, ⟨?_, ?_⟩, ?_⟩
          · rw [hc2, hf3, hclk1, hcpT]
            rfl
          · intro hcp hfsm
            rw [hf3] at hfsm
            exact absurd hfsm (by decide)
          · intro hline
            unfold tCs
            rw [hf3, hfq]
            rfl

theorem c4_no_coincident_edges_witness :
    TInv false tReset ∧
    TInv false (tickStep 32 false false ⟨true, false, 3, 5, 9, 2, 1⟩ tReset) ∧
    (tClkLine false (tickStep 32 false false ⟨true, false, 3, 5, 9, 2, 1⟩ tReset) ≠
        tClkLine false tReset →
      tCs (tickStep 32 false false ⟨true, false, 3, 5, 9, 2, 1⟩ tReset) = tCs tReset) :=
  c4_no_coincident_edges 32 false false false ⟨true, false, 3, 5, 9, 2, 1⟩ tReset
    (by decide) ⟨by decide, by decide⟩

end Spi
